import Mathlib

/-!
Verification of the iFetch differential download engine.

This file shallowly embeds the core of the repository — `FileChunker`
(src/ifetch/chunker.py), `DownloadManager` (src/ifetch/downloader.py) and
`DownloadTracker` (src/ifetch/tracker.py) — as executable Lean definitions and
proves properties of them.  Bytes are `Nat`s, files are `Option (List Byte)`
(`none` = the file does not exist), the MD5 / SHA-256 digests are external
library calls and therefore appear as function parameters, and python dicts are
association lists with overwrite-on-duplicate-key insertion.
-/

namespace IFetch

/-- A single byte of file content. -/
abbrev Byte := Nat

/-- A python dict from hash strings to `(start, end)` ranges, as an association
list; insertion overwrites the value of an existing key (dict semantics). -/
def dictInsert (m : List (String × Nat × Nat)) (k : String) (v : Nat × Nat) :
    List (String × Nat × Nat) :=
  if (m.map Prod.fst).contains k then
    m.map (fun e => if e.1 = k then (k, v) else e)
  else m ++ [(k, v)]

/-- The read loop of `FileChunker.get_file_chunks`: read the file in
`chunkSize` windows from `position`, mapping each window's hash to its
inclusive byte range. -/
def buildChunksLoop (md5 : List Byte → String) (chunkSize : Nat) (data : List Byte)
    (position : Nat) (acc : List (String × Nat × Nat)) : List (String × Nat × Nat) :=
  let chunk_data := data.take chunkSize
  if h : chunk_data = [] then acc
  else
    buildChunksLoop md5 chunkSize (data.drop chunkSize) (position + chunk_data.length)
      (dictInsert acc (md5 chunk_data) (position, position + chunk_data.length - 1))
termination_by data.length
decreasing_by
  simp only [List.length_drop]
  have h1 : data.take chunkSize ≠ [] := h
  have h2 : chunkSize ≠ 0 := by rintro rfl; simp at h1
  have h3 : 0 < data.length := by
    cases data with
    | nil => simp at h1
    | cons a l => simp
  omega

/-- `FileChunker.get_file_chunks`: empty map when the file is absent or empty,
otherwise the hash-indexed windows of its content. -/
def get_file_chunks (md5 : List Byte → String) (chunkSize : Nat)
    (file : Option (List Byte)) : List (String × Nat × Nat) :=
  match file with
  | none => []
  | some data => if data.length = 0 then [] else buildChunksLoop md5 chunkSize data 0 []

/-- The windows visited by the remote-scan loop of
`FileChunker.find_changed_chunks`: read `chunkSize` windows while
`position < total` and the read is non-empty. -/
def remoteWindows (chunkSize : Nat) (data : List Byte) (position total : Nat) :
    List (Nat × List Byte) :=
  if position < total then
    let chunk_data := data.take chunkSize
    if h : chunk_data = [] then []
    else
      (position, chunk_data) ::
        remoteWindows chunkSize (data.drop chunkSize) (position + chunk_data.length) total
  else []
termination_by data.length
decreasing_by
  simp only [List.length_drop]
  have h1 : data.take chunkSize ≠ [] := h
  have h2 : chunkSize ≠ 0 := by rintro rfl; simp at h1
  have h3 : 0 < data.length := by
    cases data with
    | nil => simp at h1
    | cons a l => simp
  omega

/-- The candidate-collection loop of `FileChunker.find_changed_chunks`: a
window is recorded as a changed range at its remote offset exactly when its
hash is not a key of `existing` (python `chunk_hash not in existing_chunks`
consults dict keys only). -/
def scanChangedRanges (md5 : List Byte → String) (chunkSize : Nat)
    (existing : List (String × Nat × Nat)) (data : List Byte) (position total : Nat) :
    List (Nat × Nat) :=
  if position < total then
    let chunk_data := data.take chunkSize
    if h : chunk_data = [] then []
    else
      let rest := scanChangedRanges md5 chunkSize existing (data.drop chunkSize)
        (position + chunk_data.length) total
      if (existing.map Prod.fst).contains (md5 chunk_data) then rest
      else (position, position + chunk_data.length - 1) :: rest
  else []
termination_by data.length
decreasing_by
  simp only [List.length_drop]
  have h1 : data.take chunkSize ≠ [] := h
  have h2 : chunkSize ≠ 0 := by rintro rfl; simp at h1
  have h3 : 0 < data.length := by
    cases data with
    | nil => simp at h1
    | cons a l => simp
  omega

/-- The coalescing loop of `FileChunker.find_changed_chunks`: keep a last
range `prev`; a next range whose start is `≤ prev.end + 1` is merged into it,
otherwise `prev` is emitted. -/
def mergeLoop (prev : Nat × Nat) : List (Nat × Nat) → List (Nat × Nat)
  | [] => [prev]
  | (cs, ce) :: rest =>
    if cs ≤ prev.2 + 1 then mergeLoop (prev.1, max prev.2 ce) rest
    else prev :: mergeLoop (cs, ce) rest

/-- Merge a (sorted) candidate list of ranges, coalescing overlapping or
adjacent neighbours. -/
def mergeRanges : List (Nat × Nat) → List (Nat × Nat)
  | [] => []
  | r :: rs => mergeLoop r rs

/-- Lexicographic order on `(start, end)` pairs: python's default tuple
ordering used by `changed_ranges.sort()`. -/
def tupleLe (a b : Nat × Nat) : Prop := a.1 < b.1 ∨ (a.1 = b.1 ∧ a.2 ≤ b.2)

instance : DecidableRel tupleLe := fun _ _ => inferInstanceAs (Decidable (_ ∨ _))

/-- Order by start offset only: `changed_ranges.sort(key=lambda r: r[0])` in
`download_drive_item`. -/
def fstLe (a b : Nat × Nat) : Prop := a.1 ≤ b.1

instance : DecidableRel fstLe := fun _ _ => inferInstanceAs (Decidable (_ ≤ _))

/-- `FileChunker.find_changed_chunks`.  `contentLength` is the response's
`content-length` header (`none` when the header is missing; `get` defaults it
to `0`), `remote` the remote byte source, `existing_chunks` the local chunk
map. -/
def find_changed_chunks (md5 : List Byte → String) (chunkSize : Nat)
    (contentLength : Option Nat) (remote : List Byte)
    (existing_chunks : List (String × Nat × Nat)) : List (Nat × Nat) :=
  if existing_chunks = [] then
    let total_size := contentLength.getD 0
    if total_size > 0 then [(0, total_size - 1)] else []
  else
    let total_size := contentLength.getD 0
    let changed_ranges := scanChangedRanges md5 chunkSize existing_chunks remote 0 total_size
    if changed_ranges = [] then []
    else mergeRanges (changed_ranges.insertionSort tupleLe)

/-- The merge step of the spec, exactly as the code performs it on the
candidate list: ascending sort, then coalescing of overlapping or adjacent
neighbours (including the guard for the empty candidate list). -/
def mergeStep (l : List (Nat × Nat)) : List (Nat × Nat) :=
  if l = [] then [] else mergeRanges (l.insertionSort tupleLe)

/-- Ranges are inclusive `(start, end)` pairs with `start ≤ end`. -/
def RangeWF (l : List (Nat × Nat)) : Prop := ∀ r ∈ l, r.1 ≤ r.2

/-- Consecutive ranges neither overlap nor touch: `prev.end + 1 < next.start`. -/
def Separated (l : List (Nat × Nat)) : Prop := l.Chain' (fun p q => p.2 + 1 < q.1)

theorem mergeLoop_shape : ∀ (l : List (Nat × Nat)) (prev : Nat × Nat),
    ∃ b tl, mergeLoop prev l = (prev.1, b) :: tl ∧ prev.2 ≤ b
  | [], prev => ⟨prev.2, [], by simp [mergeLoop], le_refl _⟩
  | (cs, ce) :: rest, prev => by
    by_cases hc : cs ≤ prev.2 + 1
    · obtain ⟨b, tl, heq, hb⟩ := mergeLoop_shape rest (prev.1, max prev.2 ce)
      exact ⟨b, tl, by simp only [mergeLoop, if_pos hc]; simpa using heq,
        le_trans (le_max_left _ _) hb⟩
    · exact ⟨prev.2, mergeLoop (cs, ce) rest, by simp [mergeLoop, hc], le_refl _⟩

theorem mergeLoop_separated : ∀ (l : List (Nat × Nat)) (prev : Nat × Nat),
    Separated (mergeLoop prev l)
  | [], prev => by simp [mergeLoop, Separated]
  | (cs, ce) :: rest, prev => by
    unfold Separated
    by_cases hc : cs ≤ prev.2 + 1
    · simpa [mergeLoop, hc, Separated] using mergeLoop_separated rest (prev.1, max prev.2 ce)
    · obtain ⟨b, tl, heq, _⟩ := mergeLoop_shape rest (cs, ce)
      have hrec := mergeLoop_separated rest (cs, ce)
      unfold Separated at hrec
      rw [heq] at hrec
      simp only [mergeLoop, if_neg hc, heq]
      exact List.chain'_cons.mpr ⟨Nat.lt_of_not_le hc, hrec⟩

theorem mergeLoop_wf : ∀ (l : List (Nat × Nat)) (prev : Nat × Nat),
    prev.1 ≤ prev.2 → RangeWF l → RangeWF (mergeLoop prev l)
  | [], prev, hp, _ => by
    intro r hr
    simp only [mergeLoop, List.mem_singleton] at hr
    exact hr ▸ hp
  | (cs, ce) :: rest, prev, hp, hl => by
    by_cases hc : cs ≤ prev.2 + 1
    · have hp' : (prev.1, max prev.2 ce).1 ≤ (prev.1, max prev.2 ce).2 :=
        le_trans hp (le_max_left _ _)
      have := mergeLoop_wf rest (prev.1, max prev.2 ce) hp'
        (fun r hr => hl r (List.mem_cons_of_mem _ hr))
      simpa [mergeLoop, hc] using this
    · intro r hr
      simp only [mergeLoop, if_neg hc, List.mem_cons] at hr
      rcases hr with rfl | hr
      · exact hp
      · have hce : (cs, ce).1 ≤ (cs, ce).2 := hl (cs, ce) (by simp)
        exact mergeLoop_wf rest (cs, ce) hce
          (fun r hr => hl r (List.mem_cons_of_mem _ hr)) r hr

theorem mergeLoop_of_separated : ∀ (l : List (Nat × Nat)) (prev : Nat × Nat),
    List.Chain' (fun p q => p.2 + 1 < q.1) (prev :: l) → mergeLoop prev l = prev :: l
  | [], prev, _ => by simp [mergeLoop]
  | (cs, ce) :: rest, prev, hch => by
    rw [List.chain'_cons] at hch
    have h1 : prev.2 + 1 < cs := hch.1
    have hc : ¬ cs ≤ prev.2 + 1 := by omega
    simp only [mergeLoop, if_neg hc]
    rw [mergeLoop_of_separated rest (cs, ce) hch.2]

theorem sep_wf_pairwise : ∀ l : List (Nat × Nat), Separated l → RangeWF l →
    l.Pairwise (fun p q => p.2 + 1 < q.1)
  | [], _, _ => List.Pairwise.nil
  | [p], _, _ => by simp
  | p :: q :: rest, hsep, hwf => by
    rw [Separated, List.chain'_cons] at hsep
    have ih := sep_wf_pairwise (q :: rest) hsep.2
      (fun r hr => hwf r (List.mem_cons_of_mem _ hr))
    refine List.Pairwise.cons ?_ ih
    intro a ha
    rcases List.mem_cons.mp ha with rfl | ha
    · exact hsep.1
    · have hq : q.1 ≤ q.2 := hwf q (by simp)
      have hqa : q.2 + 1 < a.1 := (List.pairwise_cons.mp ih).1 a ha
      have h1 : p.2 + 1 < q.1 := hsep.1
      omega

theorem sep_wf_sorted_tupleLe {l : List (Nat × Nat)} (hs : Separated l) (hw : RangeWF l) :
    l.Sorted tupleLe :=
  List.Pairwise.imp_of_mem
    (fun {a b} ha _ hab => Or.inl (by have := hw a ha; omega))
    (sep_wf_pairwise l hs hw)

theorem sep_wf_sorted_fstLe {l : List (Nat × Nat)} (hs : Separated l) (hw : RangeWF l) :
    l.Sorted fstLe :=
  List.Pairwise.imp_of_mem
    (fun {a b} ha _ hab => by have := hw a ha; show a.1 ≤ b.1; omega)
    (sep_wf_pairwise l hs hw)

theorem remoteWindows_mem_ne_nil (cs : Nat) (data : List Byte) (pos total : Nat) :
    ∀ w ∈ remoteWindows cs data pos total, w.2 ≠ [] := by
  rw [remoteWindows]
  by_cases hpt : pos < total
  · simp only [if_pos hpt]
    by_cases h : data.take cs = []
    · simp [h]
    · simp only [dif_neg h]
      intro w hw
      rcases List.mem_cons.mp hw with rfl | hw
      · exact h
      · exact remoteWindows_mem_ne_nil cs (data.drop cs)
          (pos + (data.take cs).length) total w hw
  · simp [hpt]
termination_by data.length
decreasing_by
  simp only [List.length_drop]
  have h2 : cs ≠ 0 := by rintro rfl; simp at h
  have h3 : 0 < data.length := by
    cases data with
    | nil => simp at h
    | cons a l => simp
  omega

theorem scanChangedRanges_eq_filterMap (md5 : List Byte → String) (cs : Nat)
    (ex : List (String × Nat × Nat)) (data : List Byte) (pos total : Nat) :
    scanChangedRanges md5 cs ex data pos total =
      (remoteWindows cs data pos total).filterMap
        (fun w => if (ex.map Prod.fst).contains (md5 w.2) then none
          else some (w.1, w.1 + w.2.length - 1)) := by
  rw [scanChangedRanges, remoteWindows]
  by_cases hpt : pos < total
  · simp only [if_pos hpt]
    by_cases h : data.take cs = []
    · simp [h]
    · simp only [dif_neg h, List.filterMap_cons]
      rw [scanChangedRanges_eq_filterMap md5 cs ex (data.drop cs)
        (pos + (data.take cs).length) total]
      by_cases hcont : (ex.map Prod.fst).contains (md5 (data.take cs))
      · simp only [if_pos hcont]
      · simp only [if_neg hcont]
  · simp [hpt]
termination_by data.length
decreasing_by
  simp only [List.length_drop]
  have h2 : cs ≠ 0 := by rintro rfl; simp at h
  have h3 : 0 < data.length := by
    cases data with
    | nil => simp at h
    | cons a l => simp
  omega

theorem scanChangedRanges_wf (md5 : List Byte → String) (cs : Nat)
    (ex : List (String × Nat × Nat)) (data : List Byte) (pos total : Nat) :
    RangeWF (scanChangedRanges md5 cs ex data pos total) := by
  intro r hr
  rw [scanChangedRanges_eq_filterMap] at hr
  obtain ⟨w, hw, hfw⟩ := List.mem_filterMap.mp hr
  by_cases hcont : (ex.map Prod.fst).contains (md5 w.2)
  · rw [if_pos hcont] at hfw
    exact Option.noConfusion hfw
  · rw [if_neg hcont, Option.some.injEq] at hfw
    have hne := remoteWindows_mem_ne_nil cs data pos total w hw
    have hlen : 0 < w.2.length := List.length_pos.mpr hne
    rw [← hfw]
    simp only
    omega

theorem plan_sep_wf (md5 : List Byte → String) (chunkSize : Nat) (contentLength : Option Nat)
    (remote : List Byte) (ex : List (String × Nat × Nat)) :
    Separated (find_changed_chunks md5 chunkSize contentLength remote ex) ∧
    RangeWF (find_changed_chunks md5 chunkSize contentLength remote ex) := by
  unfold find_changed_chunks
  by_cases hex : ex = []
  · simp only [if_pos hex]
    by_cases ht : contentLength.getD 0 > 0
    · simp only [if_pos ht]
      refine ⟨by simp [Separated], ?_⟩
      intro r hr
      simp only [List.mem_singleton] at hr
      subst hr
      simp
    · simp [if_neg ht, Separated, RangeWF]
  · simp only [if_neg hex]
    by_cases hch : scanChangedRanges md5 chunkSize ex remote 0 (contentLength.getD 0) = []
    · simp [hch, Separated, RangeWF]
    · simp only [if_neg hch]
      have hwf : RangeWF ((scanChangedRanges md5 chunkSize ex remote 0
          (contentLength.getD 0)).insertionSort tupleLe) := by
        intro r hr
        exact scanChangedRanges_wf md5 chunkSize ex remote 0 (contentLength.getD 0) r
          ((List.mem_insertionSort _).mp hr)
      cases hsort : (scanChangedRanges md5 chunkSize ex remote 0
          (contentLength.getD 0)).insertionSort tupleLe with
      | nil => simp [mergeRanges, Separated, RangeWF]
      | cons r rs =>
        rw [hsort] at hwf
        refine ⟨mergeLoop_separated rs r, ?_⟩
        exact mergeLoop_wf rs r (hwf r (List.mem_cons_self _ _))
          (fun x hx => hwf x (List.mem_cons_of_mem _ hx))

/-- Claim C2: when the local chunk map is empty and the declared total size
read from the response's `content-length` header is positive, the returned
plan is exactly the single whole-file range `[0, declaredTotalSize - 1]`. -/
theorem find_changed_chunks_empty_map (md5 : List Byte → String) (chunkSize : Nat)
    (remote : List Byte) (n : Nat) (hn : 0 < n) :
    find_changed_chunks md5 chunkSize (some n) remote [] = [(0, n - 1)] := by
  simp [find_changed_chunks, hn]

/-- The 3 MiB scenario of the spec: local file absent (empty map), remote
file declares 3 MiB, chunk size 1 MiB — the plan is `[(0, 3145727)]`. -/
theorem find_changed_chunks_empty_map_witness :
    find_changed_chunks (fun _ => "") 1048576 (some 3145728) [] [] = [(0, 3145727)] :=
  find_changed_chunks_empty_map (fun _ => "") 1048576 [] 3145728 (by norm_num)

/-- Claim C3: every plan returned by `find_changed_chunks` is sorted strictly
ascending by start offset, pairwise non-overlapping and non-adjacent
(`next.start > prev.end + 1`), and applying the merge step (ascending sort,
then coalescing of ranges with `next.start ≤ prev.end + 1`) a second time to a
returned plan yields the same plan. -/
theorem find_changed_chunks_sorted_separated_mergeIdem (md5 : List Byte → String)
    (chunkSize : Nat) (contentLength : Option Nat) (remote : List Byte)
    (ex : List (String × Nat × Nat)) :
    (find_changed_chunks md5 chunkSize contentLength remote ex).Pairwise
        (fun p q => p.1 < q.1) ∧
    (find_changed_chunks md5 chunkSize contentLength remote ex).Pairwise
        (fun p q => p.2 + 1 < q.1) ∧
    mergeStep (find_changed_chunks md5 chunkSize contentLength remote ex) =
      find_changed_chunks md5 chunkSize contentLength remote ex := by
  obtain ⟨hsep, hwf⟩ := plan_sep_wf md5 chunkSize contentLength remote ex
  have hpw := sep_wf_pairwise _ hsep hwf
  refine ⟨?_, hpw, ?_⟩
  · exact List.Pairwise.imp_of_mem (fun {a b} ha _ hab => by have := hwf a ha; omega) hpw
  · unfold mergeStep
    by_cases hnil : find_changed_chunks md5 chunkSize contentLength remote ex = []
    · simp [hnil]
    · rw [if_neg hnil, List.Sorted.insertionSort_eq (sep_wf_sorted_tupleLe hsep hwf)]
      cases hplan : find_changed_chunks md5 chunkSize contentLength remote ex with
      | nil => exact absurd hplan hnil
      | cons r rs =>
        rw [hplan] at hsep
        simpa [mergeRanges] using mergeLoop_of_separated rs r hsep

/-- Claim C4: a remote window starting at offset `p` becomes a candidate
changed range `[p, p + len - 1]` exactly when its hash is absent from the keys
of the local chunk map, and the whole diff depends on the local map only
through its key list — the `(start, end)` value stored under a hash is never
consulted, so local position never matters. -/
theorem candidate_iff_hash_absent (md5 : List Byte → String) (cs : Nat)
    (ex ex2 : List (String × Nat × Nat)) (contentLength : Option Nat)
    (data : List Byte) (total p e : Nat) :
    ((p, e) ∈ scanChangedRanges md5 cs ex data 0 total ↔
      ∃ w, (p, w) ∈ remoteWindows cs data 0 total ∧
        (ex.map Prod.fst).contains (md5 w) = false ∧ e = p + w.length - 1) ∧
    (ex.map Prod.fst = ex2.map Prod.fst →
      find_changed_chunks md5 cs contentLength data ex =
        find_changed_chunks md5 cs contentLength data ex2) := by
  constructor
  · rw [scanChangedRanges_eq_filterMap, List.mem_filterMap]
    constructor
    · rintro ⟨⟨q, w⟩, hw, hfw⟩
      by_cases hcont : ((ex.map Prod.fst).contains (md5 w) : Bool)
      · rw [if_pos hcont] at hfw
        exact Option.noConfusion hfw
      · rw [if_neg (by simpa using hcont), Option.some.injEq, Prod.mk.injEq] at hfw
        obtain ⟨rfl, rfl⟩ := hfw
        exact ⟨w, hw, by simpa using hcont, rfl⟩
    · rintro ⟨w, hw, hcont, rfl⟩
      refine ⟨(p, w), hw, ?_⟩
      rw [if_neg (fun htrue => Bool.false_ne_true (hcont ▸ htrue))]
  · intro hkeys
    have hiff : ex = [] ↔ ex2 = [] := by
      constructor
      · intro h
        rw [h] at hkeys
        exact List.map_eq_nil_iff.mp hkeys.symm
      · intro h
        rw [h] at hkeys
        exact List.map_eq_nil_iff.mp hkeys
    by_cases hex : ex = []
    · simp only [find_changed_chunks, if_pos hex, if_pos (hiff.mp hex)]
    · simp only [find_changed_chunks, if_neg hex, if_neg (fun h => hex (hiff.mpr h))]
      rw [scanChangedRanges_eq_filterMap, scanChangedRanges_eq_filterMap, hkeys]

/-- A concrete instance of C4's map-key invariance: moving the local ranges
stored under the hashes does not change the diff. -/
theorem candidate_iff_hash_absent_witness :
    find_changed_chunks (fun l => toString (l.headD 0)) 2 (some 4) [9, 9, 8, 8]
        [("9", (0, 1)), ("7", (2, 3))] =
      find_changed_chunks (fun l => toString (l.headD 0)) 2 (some 4) [9, 9, 8, 8]
        [("9", (5, 9)), ("7", (0, 0))] :=
  (candidate_iff_hash_absent (fun l => toString (l.headD 0)) 2
    [("9", (0, 1)), ("7", (2, 3))] [("9", (5, 9)), ("7", (0, 0))]
    (some 4) [9, 9, 8, 8] 4 0 0).2 rfl

/-- A `DownloadStatus` record (src/ifetch/models.py). -/
structure DownloadStatus where
  path : String
  size : Nat
  downloaded : Nat
  checksum : String
  status : String
  changes : Nat
  error : String
deriving Repr, DecidableEq

/-- Outcome of one HTTP attempt inside `_stream_download_range`: a completed
response with the given status code, or a network error raised by the HTTP
library. -/
inductive AttemptOut where
  | resp (code : Nat)
  | netError (msg : String)
deriving Repr, DecidableEq

/-- The error recorded as `last_error` after a failed attempt. -/
inductive ReqError where
  | httpError (code : Nat)
  | unexpectedStatus (code : Nat)
  | network (msg : String)
deriving Repr, DecidableEq

/-- One attempt of the retry loop: `raise_for_status` raises for codes ≥ 400,
then only 200/206 count as success (`none` = the attempt succeeded, otherwise
the recorded error). -/
def attemptError : AttemptOut → Option ReqError
  | .resp code =>
    if 400 ≤ code then some (.httpError code)
    else if code = 200 ∨ code = 206 then none
    else some (.unexpectedStatus code)
  | .netError m => some (.network m)

/-- Result of `_stream_download_range`: `.error` carries the range bounds, the
retry budget and the last error of the raised exception; `sleeps` is the trace
of backoff durations. -/
structure FetchResult where
  outcome : Except (Nat × Nat × Nat × Option ReqError) Unit
  sleeps : List Nat
deriving Repr

/-- The retry loop of `DownloadManager._stream_download_range`: while
`retries < maxRetries`, run attempt number `retries`; a failure records
`last_error`, increments `retries` and sleeps `2 ^ retries` time units (so the
1-indexed attempt `n` is followed by a `2 ^ n` backoff); exhaustion raises with
the bounds and the last error. -/
def streamLoop (att : Nat → AttemptOut) (maxRetries s e retries : Nat)
    (lastError : Option ReqError) (sleeps : List Nat) : FetchResult :=
  if h : retries < maxRetries then
    match attemptError (att retries) with
    | none => ⟨.ok (), sleeps⟩
    | some err =>
      streamLoop att maxRetries s e (retries + 1) (some err) (sleeps ++ [2 ^ (retries + 1)])
  else ⟨.error (s, e, maxRetries, lastError), sleeps⟩
termination_by maxRetries - retries
decreasing_by omega

/-- `DownloadManager._stream_download_range` over an oracle of attempt
outcomes. -/
def stream_download_range (att : Nat → AttemptOut) (maxRetries s e : Nat) : FetchResult :=
  streamLoop att maxRetries s e 0 none []

/-- Write `data` into `file` at byte `offset` (POSIX seek-and-write: gaps are
zero-filled, existing bytes beyond the written span are kept). -/
def writeAt (file : List Byte) (offset : Nat) (data : List Byte) : List Byte :=
  file.take offset ++ List.replicate (offset - file.length) 0 ++ data ++
    file.drop (offset + data.length)

/-- The bytes a range request `start..end` (inclusive) returns from the remote
file. -/
def sliceRange (data : List Byte) (s e : Nat) : List Byte :=
  (data.drop s).take (e + 1 - s)

/-- Local filesystem state relevant to one `download_drive_item` call: the
destination file, the `.temp` staging file and the `.download` checkpoint
sidecar (only well-formed or absent sidecars appear here; corrupt sidecar
content is analysed separately with the `DownloadTracker` model below). -/
structure FS where
  dest : Option (List Byte)
  temp : Option (List Byte)
  sidecar : Option Nat
deriving Repr, DecidableEq

/-- The oracle for everything outside `download_drive_item`'s control: the
drive item, the streamed response, filesystem failures, and the network
attempts of every range fetch (`attempts i j` is attempt `j` of the `i`-th
range in iteration order). -/
structure Env where
  itemValid : Bool
  localPath : String
  openFails : Bool
  contentLength : Option Nat
  remote : List Byte
  mkdirFails : Bool
  prepFails : Bool
  attempts : Nat → Nat → AttemptOut
  replaceFails : Bool
  unlinkFails : Bool

/-- Everything one `download_drive_item` call produces: its boolean result,
the final filesystem state, the `DownloadStatus` records appended to
`download_results`, the positions passed to `tracker.save_status`, the ranges
fetched (in order), and whether the exception handler ran. -/
structure RunOut where
  ok : Bool
  fs : FS
  results : List DownloadStatus
  saved : List Nat
  fetched : List (Nat × Nat)
  raised : Bool
deriving Repr

/-- The failed record appended by the exception handler (downloader.py lines
279-286): `downloaded = 0`, empty checksum, status `failed`. -/
def failedStatus (path : String) (size : Nat) (err : String) : DownloadStatus :=
  ⟨path, size, 0, "", "failed", 0, err⟩

/-- The handler's best-effort staging cleanup (lines 268-277): delete the
staging file if it exists; an `OSError` from `unlink` is swallowed and leaves
the file behind. -/
def cleanupTemp (unlinkFails : Bool) (temp : Option (List Byte)) : Option (List Byte) :=
  match temp with
  | none => none
  | some t => if unlinkFails then some t else none

/-- The per-range staging loop (downloader.py lines 222-224): fetch each range
into the staging file at its offset via `_stream_download_range`, then
checkpoint `end + 1`.  Returns the message of the first range failure (if
any), the final staging content, the checkpointed positions, and the fetched
ranges in order. -/
def stagingLoop (attempts : Nat → Nat → AttemptOut) (maxRetries : Nat)
    (remote : List Byte) : List (Nat × Nat) → Nat → List Byte →
    Option String × List Byte × List Nat × List (Nat × Nat)
  | [], _, temp => (none, temp, [], [])
  | (s, e) :: rest, i, temp =>
    match (stream_download_range (attempts i) maxRetries s e).outcome with
    | .ok _ =>
      let next := stagingLoop attempts maxRetries remote rest (i + 1)
        (writeAt temp s (sliceRange remote s e))
      (next.1, next.2.1, (e + 1) :: next.2.2.1, (s, e) :: next.2.2.2)
    | .error _ =>
      (some ("Failed to download range " ++ toString s ++ "-" ++ toString e),
        temp, [], [])

/-- Initial staging-file content (lines 204-210): a byte-for-byte copy of the
destination when it exists, otherwise a zero-filled file of the declared size
(`seek(total - 1); write(b'\x00')`), or an empty file when the size is 0. -/
def initTemp (dest : Option (List Byte)) (total_size : Nat) : List Byte :=
  match dest with
  | some d => d
  | none => if total_size > 0 then List.replicate total_size 0 else []

/-- The checkpoint sidecar after a sequence of `save_status` calls: the last
saved position, or the prior sidecar when nothing was saved. -/
def sidecarAfter (saved : List Nat) (old : Option Nat) : Option Nat :=
  match saved.getLast? with
  | some p => some p
  | none => old

/-- The post-diff part of `download_drive_item` (lines 199-287): create the
staging file, run the staging loop, validate, atomically replace, and record
the outcome; every raised exception ends in the handler, which cleans up the
staging file best-effort and appends a failed record. -/
def stagingPhase (sha : List Byte → String) (maxRetries : Nat) (env : Env) (fs : FS)
    (total_size : Nat) (changed_ranges : List (Nat × Nat)) : RunOut :=
  if env.mkdirFails then
    ⟨false, { fs with temp := cleanupTemp env.unlinkFails fs.temp },
      [failedStatus env.localPath total_size "mkdir failed"], [], [], true⟩
  else if env.prepFails then
    ⟨false, { fs with temp := cleanupTemp env.unlinkFails fs.temp },
      [failedStatus env.localPath total_size "staging file creation failed"], [], [], true⟩
  else
    let bytes_to_download := (changed_ranges.map (fun r => r.2 + 1 - r.1)).sum
    let res := stagingLoop env.attempts maxRetries env.remote
      (changed_ranges.insertionSort fstLe) 0 (initTemp fs.dest total_size)
    let sidecar1 : Option Nat := sidecarAfter res.2.2.1 fs.sidecar
    match res.1 with
    | some err =>
      ⟨false, ⟨fs.dest, cleanupTemp env.unlinkFails (some res.2.1), sidecar1⟩,
        [failedStatus env.localPath total_size err], res.2.2.1, res.2.2.2, true⟩
    | none =>
      if res.2.1 = [] ∧ total_size > 0 then
        ⟨false, ⟨fs.dest, some res.2.1, sidecar1⟩,
          [], res.2.2.1, res.2.2.2, false⟩
      else if env.replaceFails then
        ⟨false, ⟨fs.dest, cleanupTemp env.unlinkFails (some res.2.1), sidecar1⟩,
          [failedStatus env.localPath total_size "replace failed"], res.2.2.1, res.2.2.2, true⟩
      else
        if res.2.1.length > 0 ∨ total_size = 0 then
          ⟨true, ⟨some res.2.1, none, none⟩,
            [⟨env.localPath, total_size, bytes_to_download, sha res.2.1, "completed",
              changed_ranges.length, ""⟩], res.2.2.1, res.2.2.2, false⟩
        else
          ⟨false, ⟨some res.2.1, none, sidecar1⟩,
            [], res.2.2.1, res.2.2.2, false⟩

/-- `DownloadManager.download_drive_item` over the oracle `env` and initial
filesystem state `fs`. -/
def download_drive_item (md5 sha : List Byte → String) (chunkSize maxRetries : Nat)
    (env : Env) (fs : FS) : RunOut :=
  if env.itemValid = false then
    ⟨false, fs, [], [], [], false⟩
  else if env.openFails then
    ⟨false, fs, [failedStatus env.localPath 0 "open failed"], [], [], true⟩
  else
    let total_size := env.contentLength.getD 0
    let existing_chunks := get_file_chunks md5 chunkSize fs.dest
    let changed_ranges :=
      find_changed_chunks md5 chunkSize env.contentLength env.remote existing_chunks
    if changed_ranges = [] then
      let final_checksum :=
        match fs.dest with
        | some d => if d.length > 0 then sha d else ""
        | none => ""
      ⟨true, { fs with sidecar := none },
        [⟨env.localPath, total_size, 0, final_checksum, "completed", 0, ""⟩],
        [], [], false⟩
    else
      stagingPhase sha maxRetries env fs total_size changed_ranges

theorem streamLoop_all_fail (att : Nat → AttemptOut) (m s e retries : Nat)
    (lastError : Option ReqError) (sleeps : List Nat)
    (hlt : retries < m)
    (hfail : ∀ i, retries ≤ i → i < m → attemptError (att i) ≠ none) :
    streamLoop att m s e retries lastError sleeps =
      ⟨.error (s, e, m, attemptError (att (m - 1))),
        sleeps ++ (List.range' (retries + 1) (m - retries)).map (fun n => 2 ^ n)⟩ := by
  rw [streamLoop, dif_pos hlt]
  cases hatt : attemptError (att retries) with
  | none => exact absurd hatt (hfail retries (le_refl _) hlt)
  | some err =>
    dsimp only
    by_cases hlt2 : retries + 1 < m
    · rw [streamLoop_all_fail att m s e (retries + 1) (some err)
        (sleeps ++ [2 ^ (retries + 1)]) hlt2 (fun i h1 h2 => hfail i (by omega) h2)]
      have hm : m - retries = (m - (retries + 1)) + 1 := by omega
      rw [hm, List.range'_succ, List.map_cons, List.append_assoc, List.singleton_append]
    · have hm1 : m = retries + 1 := by omega
      subst hm1
      rw [streamLoop, dif_neg (by omega)]
      have h1 : retries + 1 - 1 = retries := by omega
      have h2 : retries + 1 - retries = 1 := by omega
      rw [h1, h2, hatt]
      simp [List.range'_succ]
termination_by m - retries
decreasing_by omega

theorem streamLoop_congr (a1 a2 : Nat → AttemptOut) (m s e retries : Nat)
    (lastError : Option ReqError) (sleeps : List Nat)
    (hagree : ∀ i, i < m → a1 i = a2 i) :
    streamLoop a1 m s e retries lastError sleeps =
      streamLoop a2 m s e retries lastError sleeps := by
  rw [streamLoop, streamLoop]
  by_cases hlt : retries < m
  · rw [dif_pos hlt, dif_pos hlt, hagree retries hlt]
    cases attemptError (a2 retries) with
    | none => rfl
    | some err =>
      exact streamLoop_congr a1 a2 m s e (retries + 1) (some err)
        (sleeps ++ [2 ^ (retries + 1)]) hagree
  · rw [dif_neg hlt, dif_neg hlt]
termination_by m - retries
decreasing_by omega

/-- Claim C7: `_stream_download_range` makes at most `max_retries` attempts
(its result is unchanged under any modification of the attempt oracle from
index `max_retries` on); every failed attempt — a network error or a response
status other than 200/206 — is followed by a `2 ^ n` backoff where `n` is the
1-indexed attempt number, so exhausting the budget produces the backoff trace
`2^1, …, 2^max_retries` and raises an error carrying the range bounds and the
last attempt's error. -/
theorem stream_download_range_retry_contract (att : Nat → AttemptOut)
    (maxRetries s e : Nat) (hpos : 0 < maxRetries)
    (hfail : ∀ i, i < maxRetries → attemptError (att i) ≠ none) :
    stream_download_range att maxRetries s e =
      ⟨.error (s, e, maxRetries, attemptError (att (maxRetries - 1))),
        (List.range' 1 maxRetries).map (fun n => 2 ^ n)⟩ ∧
    (∀ att2 : Nat → AttemptOut, (∀ i, i < maxRetries → att i = att2 i) →
      stream_download_range att maxRetries s e =
        stream_download_range att2 maxRetries s e) := by
  constructor
  · rw [stream_download_range,
      streamLoop_all_fail att maxRetries s e 0 none [] hpos (fun i _ h2 => hfail i h2)]
    simp
  · intro att2 hagree
    exact streamLoop_congr att att2 maxRetries s e 0 none [] hagree

/-- A concrete run of C7: three straight timeouts exhaust a budget of 3 with
backoffs 2, 4, 8, and the raised failure carries the bounds 0-9 and the last
network error. -/
theorem stream_download_range_retry_contract_witness :
    stream_download_range (fun _ => .netError "timeout") 3 0 9 =
      ⟨.error (0, 9, 3, some (.network "timeout")), [2, 4, 8]⟩ := by
  have h := (stream_download_range_retry_contract (fun _ => .netError "timeout") 3 0 9
    (by norm_num) (fun i _ => by simp [attemptError])).1
  rw [h]
  rfl

theorem stagingLoop_trace (attempts : Nat → Nat → AttemptOut) (maxRetries : Nat)
    (remote : List Byte) : ∀ (rs : List (Nat × Nat)) (i : Nat) (temp : List Byte),
    ∃ k, (stagingLoop attempts maxRetries remote rs i temp).2.2.2 = rs.take k ∧
      (stagingLoop attempts maxRetries remote rs i temp).2.2.1 =
        (rs.take k).map (fun r => r.2 + 1)
  | [], i, temp => ⟨0, by simp [stagingLoop], by simp [stagingLoop]⟩
  | (s, e) :: rest, i, temp => by
    cases hout : (stream_download_range (attempts i) maxRetries s e).outcome with
    | ok u =>
      obtain ⟨k, h1, h2⟩ := stagingLoop_trace attempts maxRetries remote rest (i + 1)
        (writeAt temp s (sliceRange remote s e))
      exact ⟨k + 1, by simp [stagingLoop, hout, h1], by simp [stagingLoop, hout, h2]⟩
    | error err =>
      exact ⟨0, by simp [stagingLoop, hout], by simp [stagingLoop, hout]⟩

theorem stagingPhase_trace (sha : List Byte → String) (maxRetries : Nat) (env : Env)
    (fs : FS) (total : Nat) (changed : List (Nat × Nat)) :
    ∃ k, (stagingPhase sha maxRetries env fs total changed).fetched =
        (changed.insertionSort fstLe).take k ∧
      (stagingPhase sha maxRetries env fs total changed).saved =
        ((changed.insertionSort fstLe).take k).map (fun r => r.2 + 1) := by
  unfold stagingPhase
  split
  · exact ⟨0, by simp, by simp⟩
  · split
    · exact ⟨0, by simp, by simp⟩
    · dsimp only
      obtain ⟨k, h1, h2⟩ := stagingLoop_trace env.attempts maxRetries env.remote
        (changed.insertionSort fstLe) 0 (initTemp fs.dest total)
      refine ⟨k, ?_, ?_⟩ <;> (repeat' split) <;> simp_all

theorem cleanupTemp_of_ok (t : Option (List Byte)) : cleanupTemp false t = none := by
  cases t <;> simp [cleanupTemp]

/-- Claim C6: within one `download_drive_item` call the changed ranges are
fetched in strictly ascending start-offset order, every checkpoint position
saved is `end + 1` of the range just completed, and the saved positions form a
strictly increasing sequence. -/
theorem download_ranges_ascending_checkpoints (md5 sha : List Byte → String)
    (chunkSize maxRetries : Nat) (env : Env) (fs : FS) :
    (download_drive_item md5 sha chunkSize maxRetries env fs).fetched.Pairwise
        (fun a b => a.1 < b.1) ∧
    (download_drive_item md5 sha chunkSize maxRetries env fs).saved =
      (download_drive_item md5 sha chunkSize maxRetries env fs).fetched.map
        (fun r => r.2 + 1) ∧
    (download_drive_item md5 sha chunkSize maxRetries env fs).saved.Pairwise (· < ·) := by
  unfold download_drive_item
  split
  · simp
  · split
    · simp
    · dsimp only
      split
      · simp
      · obtain ⟨hsep, hwf⟩ := plan_sep_wf md5 chunkSize env.contentLength env.remote
          (get_file_chunks md5 chunkSize fs.dest)
        have hsorted : (find_changed_chunks md5 chunkSize env.contentLength env.remote
              (get_file_chunks md5 chunkSize fs.dest)).insertionSort fstLe =
            find_changed_chunks md5 chunkSize env.contentLength env.remote
              (get_file_chunks md5 chunkSize fs.dest) :=
          List.Sorted.insertionSort_eq (sep_wf_sorted_fstLe hsep hwf)
        obtain ⟨k, h1, h2⟩ := stagingPhase_trace sha maxRetries env fs
          (env.contentLength.getD 0)
          (find_changed_chunks md5 chunkSize env.contentLength env.remote
            (get_file_chunks md5 chunkSize fs.dest))
        rw [hsorted] at h1 h2
        have hsub := List.take_sublist k (find_changed_chunks md5 chunkSize
          env.contentLength env.remote (get_file_chunks md5 chunkSize fs.dest))
        have hpw := sep_wf_pairwise _ hsep hwf
        have hpwt := hpw.sublist hsub
        have hwft : RangeWF ((find_changed_chunks md5 chunkSize env.contentLength
            env.remote (get_file_chunks md5 chunkSize fs.dest)).take k) :=
          fun r hr => hwf r (hsub.subset hr)
        refine ⟨?_, ?_, ?_⟩
        · rw [h1]
          exact List.Pairwise.imp_of_mem
            (fun {a b} ha _ hab => by have := hwft a ha; omega) hpwt
        · rw [h1, h2]
        · rw [h2, List.pairwise_map]
          exact List.Pairwise.imp_of_mem
            (fun {a b} _ hb hab => by have := hwft b hb; omega) hpwt

/-- Claim C5: an attempt that does not commit never modifies the destination
file — on any `False` result the destination bytes are exactly the prior
ones — and when the exception handler runs with a working `unlink`, the
staging file is either deleted or was never created (it survives as-is only
when `unlink` itself fails, which the handler swallows). -/
theorem stagingPhase_frame (sha : List Byte → String) (maxRetries : Nat) (env : Env)
    (fs : FS) (total : Nat) (changed : List (Nat × Nat)) :
    ((stagingPhase sha maxRetries env fs total changed).ok = false →
      (stagingPhase sha maxRetries env fs total changed).fs.dest = fs.dest) ∧
    ((stagingPhase sha maxRetries env fs total changed).raised = true →
      env.unlinkFails = false →
      (stagingPhase sha maxRetries env fs total changed).fs.temp = none) := by
  unfold stagingPhase
  by_cases h1 : env.mkdirFails
  · rw [if_pos h1]
    exact ⟨fun _ => rfl, fun _ hu => by simp [hu, cleanupTemp_of_ok]⟩
  · rw [if_neg h1]
    by_cases h2 : env.prepFails
    · rw [if_pos h2]
      exact ⟨fun _ => rfl, fun _ hu => by simp [hu, cleanupTemp_of_ok]⟩
    · rw [if_neg h2]
      try dsimp only
      cases hr : (stagingLoop env.attempts maxRetries env.remote
          (changed.insertionSort fstLe) 0 (initTemp fs.dest total)).1 with
      | some err =>
        exact ⟨fun _ => rfl, fun _ hu => by simp [hu, cleanupTemp_of_ok]⟩
      | none =>
        by_cases h3 : (stagingLoop env.attempts maxRetries env.remote
            (changed.insertionSort fstLe) 0 (initTemp fs.dest total)).2.1 = [] ∧ total > 0
        · rw [if_pos h3]
          exact ⟨fun _ => rfl, fun h _ => by simp at h⟩
        · rw [if_neg h3]
          by_cases h4 : env.replaceFails
          · rw [if_pos h4]
            exact ⟨fun _ => rfl, fun _ hu => by simp [hu, cleanupTemp_of_ok]⟩
          · rw [if_neg h4]
            by_cases h5 : (stagingLoop env.attempts maxRetries env.remote
                (changed.insertionSort fstLe) 0 (initTemp fs.dest total)).2.1.length > 0 ∨
                total = 0
            · rw [if_pos h5]
              exact ⟨fun h => by simp at h, fun h _ => by simp at h⟩
            · rw [if_neg h5]
              exfalso
              rcases not_or.mp h5 with ⟨hlen, htot⟩
              exact h3 ⟨List.length_eq_zero.mp (by omega), by omega⟩

/-- Claim C5: an attempt that does not commit never modifies the destination
file — on any `False` result the destination bytes are exactly the prior
ones — and when the exception handler runs with a working `unlink`, the
staging file is deleted if it was ever created (only the pre-staging `open`
failure leaves the filesystem untouched, and a failing `unlink` is swallowed
by the handler). -/
theorem download_failure_frame (md5 sha : List Byte → String)
    (chunkSize maxRetries : Nat) (env : Env) (fs : FS) :
    ((download_drive_item md5 sha chunkSize maxRetries env fs).ok = false →
      (download_drive_item md5 sha chunkSize maxRetries env fs).fs.dest = fs.dest) ∧
    ((download_drive_item md5 sha chunkSize maxRetries env fs).raised = true →
      env.unlinkFails = false →
      (download_drive_item md5 sha chunkSize maxRetries env fs).fs.temp = none ∨
      (download_drive_item md5 sha chunkSize maxRetries env fs).fs.temp = fs.temp) := by
  unfold download_drive_item
  split
  · exact ⟨fun _ => rfl, fun _ _ => Or.inr rfl⟩
  · split
    · exact ⟨fun _ => rfl, fun _ _ => Or.inr rfl⟩
    · dsimp only
      split
      · exact ⟨fun h => by simp at h, fun h _ => by simp at h⟩
      · obtain ⟨hf1, hf2⟩ := stagingPhase_frame sha maxRetries env fs
          (env.contentLength.getD 0)
          (find_changed_chunks md5 chunkSize env.contentLength env.remote
            (get_file_chunks md5 chunkSize fs.dest))
        exact ⟨hf1, fun h hu => Or.inl (hf2 h hu)⟩

/-- C5 at a concrete input: a failed open leaves the destination exactly as it
was. -/
theorem download_failure_frame_witness :
    (download_drive_item (fun _ => "") (fun _ => "") 1 3
      ⟨true, "f", true, none, [], false, false, fun _ _ => .resp 200, false, false⟩
      ⟨some [7], some [3], none⟩).fs.dest = some [7] :=
  (download_failure_frame (fun _ => "") (fun _ => "") 1 3
    ⟨true, "f", true, none, [], false, false, fun _ _ => .resp 200, false, false⟩
    ⟨some [7], some [3], none⟩).1 rfl

theorem stagingPhase_accounting (sha : List Byte → String) (maxRetries : Nat) (env : Env)
    (fs : FS) (total : Nat) (changed : List (Nat × Nat)) :
    (stagingPhase sha maxRetries env fs total changed).results.length ≤ 1 ∧
    ((stagingPhase sha maxRetries env fs total changed).ok = true →
      ∃ r, (stagingPhase sha maxRetries env fs total changed).results = [r] ∧
        r.status = "completed") ∧
    ((stagingPhase sha maxRetries env fs total changed).raised = true →
      (stagingPhase sha maxRetries env fs total changed).ok = false ∧
      ∃ r, (stagingPhase sha maxRetries env fs total changed).results = [r] ∧
        r.status = "failed") := by
  unfold stagingPhase
  by_cases h1 : env.mkdirFails
  · rw [if_pos h1]
    exact ⟨by simp, fun h => by simp at h, fun _ => ⟨rfl, _, rfl, rfl⟩⟩
  · rw [if_neg h1]
    by_cases h2 : env.prepFails
    · rw [if_pos h2]
      exact ⟨by simp, fun h => by simp at h, fun _ => ⟨rfl, _, rfl, rfl⟩⟩
    · rw [if_neg h2]
      try dsimp only
      cases hr : (stagingLoop env.attempts maxRetries env.remote
          (changed.insertionSort fstLe) 0 (initTemp fs.dest total)).1 with
      | some err =>
        exact ⟨by simp, fun h => by simp at h, fun _ => ⟨rfl, _, rfl, rfl⟩⟩
      | none =>
        by_cases h3 : (stagingLoop env.attempts maxRetries env.remote
            (changed.insertionSort fstLe) 0 (initTemp fs.dest total)).2.1 = [] ∧ total > 0
        · rw [if_pos h3]
          exact ⟨by simp, fun h => by simp at h, fun h => by simp at h⟩
        · rw [if_neg h3]
          by_cases h4 : env.replaceFails
          · rw [if_pos h4]
            exact ⟨by simp, fun h => by simp at h, fun _ => ⟨rfl, _, rfl, rfl⟩⟩
          · rw [if_neg h4]
            by_cases h5 : (stagingLoop env.attempts maxRetries env.remote
                (changed.insertionSort fstLe) 0 (initTemp fs.dest total)).2.1.length > 0 ∨
                total = 0
            · rw [if_pos h5]
              exact ⟨by simp, fun _ => ⟨_, rfl, rfl⟩, fun h => by simp at h⟩
            · rw [if_neg h5]
              exfalso
              rcases not_or.mp h5 with ⟨hlen, htot⟩
              exact h3 ⟨List.length_eq_zero.mp (by omega), by omega⟩

/-- Claim C1 (amended): a `True` result always comes with exactly one appended
`completed` outcome, a handled exception always appends exactly one `failed`
outcome together with a `False` result, never more than one record is appended
per attempt, and no exception escapes the handler — but not every failure path
records an outcome: the invalid-item early return and the two staging/final
file validation returns (downloader.py lines 226-233 and 242-248) yield
`False` with nothing appended. -/
theorem download_outcome_accounting (md5 sha : List Byte → String)
    (chunkSize maxRetries : Nat) (env : Env) (fs : FS) :
    (download_drive_item md5 sha chunkSize maxRetries env fs).results.length ≤ 1 ∧
    ((download_drive_item md5 sha chunkSize maxRetries env fs).ok = true →
      ∃ r, (download_drive_item md5 sha chunkSize maxRetries env fs).results = [r] ∧
        r.status = "completed") ∧
    ((download_drive_item md5 sha chunkSize maxRetries env fs).raised = true →
      (download_drive_item md5 sha chunkSize maxRetries env fs).ok = false ∧
      ∃ r, (download_drive_item md5 sha chunkSize maxRetries env fs).results = [r] ∧
        r.status = "failed") := by
  unfold download_drive_item
  split
  · exact ⟨by simp, fun h => by simp at h, fun h => by simp at h⟩
  · split
    · exact ⟨by simp, fun h => by simp at h, fun _ => ⟨rfl, _, rfl, rfl⟩⟩
    · dsimp only
      split
      · exact ⟨by simp, fun _ => ⟨_, rfl, rfl⟩, fun h => by simp at h⟩
      · exact stagingPhase_accounting sha maxRetries env fs (env.contentLength.getD 0)
          (find_changed_chunks md5 chunkSize env.contentLength env.remote
            (get_file_chunks md5 chunkSize fs.dest))

/-- An environment exhibiting C1's gap: a declared `content-length` of 4, a
200 response whose body streams no bytes, and an existing zero-byte
destination file. -/
def cexEnvC1 : Env :=
  ⟨true, "f", false, some 4, [], false, false, fun _ _ => .resp 200, false, false⟩

/-- Claim C1 as frozen fails on the code: under `cexEnvC1` every range fetch
"succeeds" but writes nothing, the staging file is empty while
`total_size > 0`, and the check at downloader.py line 226 returns `False`
without appending any `DownloadStatus` to the run's results. -/
theorem download_outcome_accounting_cex :
    (download_drive_item (fun _ => "h") (fun _ => "s") 4 3 cexEnvC1
        ⟨some [], none, none⟩).ok = false ∧
    (download_drive_item (fun _ => "h") (fun _ => "s") 4 3 cexEnvC1
        ⟨some [], none, none⟩).results = [] := by
  constructor <;>
    simp [download_drive_item, cexEnvC1, get_file_chunks, find_changed_chunks,
      stagingPhase, stagingLoop, stream_download_range, streamLoop, attemptError,
      initTemp, writeAt, sliceRange, sidecarAfter, cleanupTemp]

/-- C1's amended accounting at a concrete input: an unchanged file records one
completed outcome. -/
theorem download_outcome_accounting_witness :
    ∃ r, (download_drive_item (fun _ => "h") (fun _ => "s") 1 3
        ⟨true, "f", false, none, [], false, false, fun _ _ => .resp 200, false, false⟩
        ⟨none, none, none⟩).results = [r] ∧ r.status = "completed" :=
  (download_outcome_accounting (fun _ => "h") (fun _ => "s") 1 3
    ⟨true, "f", false, none, [], false, false, fun _ _ => .resp 200, false, false⟩
    ⟨none, none, none⟩).2.1 rfl

/-- Claim C10: a missing or zero `content-length` yields an empty diff plan
regardless of local state — with an empty local map no (degenerate) range is
produced and with a non-empty map the remote scan loop never runs — and the
caller then records the file as completed with zero bytes downloaded. -/
theorem content_length_zero_unchanged (md5 sha : List Byte → String)
    (chunkSize maxRetries : Nat) (env : Env) (fs : FS)
    (ex : List (String × Nat × Nat))
    (h0 : env.contentLength.getD 0 = 0)
    (hv : env.itemValid = true) (ho : env.openFails = false) :
    find_changed_chunks md5 chunkSize env.contentLength env.remote ex = [] ∧
    scanChangedRanges md5 chunkSize ex env.remote 0 (env.contentLength.getD 0) = [] ∧
    (download_drive_item md5 sha chunkSize maxRetries env fs).ok = true ∧
    ∃ r, (download_drive_item md5 sha chunkSize maxRetries env fs).results = [r] ∧
      r.status = "completed" ∧ r.downloaded = 0 := by
  have hscan : ∀ ex2 : List (String × Nat × Nat),
      scanChangedRanges md5 chunkSize ex2 env.remote 0 (env.contentLength.getD 0) = [] := by
    intro ex2
    rw [scanChangedRanges]
    simp [h0]
  have hfind : ∀ ex2 : List (String × Nat × Nat),
      find_changed_chunks md5 chunkSize env.contentLength env.remote ex2 = [] := by
    intro ex2
    unfold find_changed_chunks
    by_cases hex : ex2 = []
    · simp [hex, h0]
    · have hs := hscan ex2
      simp [hex, h0] at hs ⊢
      simp [hs]
  refine ⟨hfind ex, hscan ex, ?_, ?_⟩
  all_goals
    unfold download_drive_item
    rw [if_neg (by simp [hv]), if_neg (by simp [ho])]
    dsimp only
    rw [if_pos (hfind (get_file_chunks md5 chunkSize fs.dest))]
  exact ⟨_, rfl, rfl, rfl⟩

/-- C10 at a concrete input: a response without a `content-length` header over
a non-empty local file is recorded as completed with zero bytes downloaded. -/
theorem content_length_zero_unchanged_witness :
    ∃ r, (download_drive_item (fun _ => "h") (fun _ => "s") 1 3
        ⟨true, "f", false, none, [5, 6], false, false, fun _ _ => .resp 200, false, false⟩
        ⟨some [5, 6], none, none⟩).results = [r] ∧
      r.status = "completed" ∧ r.downloaded = 0 :=
  (content_length_zero_unchanged (fun _ => "h") (fun _ => "s") 1 3
    ⟨true, "f", false, none, [5, 6], false, false, fun _ _ => .resp 200, false, false⟩
    ⟨some [5, 6], none, none⟩ [] rfl rfl rfl).2.2.2

/-- The on-disk state of the `.download` checkpoint sidecar as
`DownloadTracker._load_status` can encounter it.  Python's `json.load` accepts
any JSON value at top level, so a readable file holds either a JSON object
(string-keyed fields) or some other JSON value (array, string, number, …). -/
inductive SidecarFile where
  | absent
  | unreadable
  | invalidJson
  | jsonNonObject
  | jsonObject (fields : List (String × Int))
deriving Repr, DecidableEq

/-- Python dict `get` with a default value. -/
def fieldsGet (fields : List (String × Int)) (k : String) (d : Int) : Int :=
  match fields.find? (fun f => f.1 = k) with
  | some f => f.2
  | none => d

/-- `DownloadTracker._load_status` (tracker.py lines 20-29): a missing file is
skipped, `JSONDecodeError` and `OSError` are caught and leave position 0, but
`data.get` on a non-object JSON value raises `AttributeError`, which the
`except (json.JSONDecodeError, OSError)` clause does not catch — the error
escapes the `DownloadTracker` constructor. -/
def load_status : SidecarFile → Except String Int
  | .absent => .ok 0
  | .unreadable => .ok 0
  | .invalidJson => .ok 0
  | .jsonNonObject => .error "AttributeError: object has no attribute get"
  | .jsonObject fields => .ok (fieldsGet fields "position" 0)

/-- `DownloadTracker.save_status` (lines 31-43): set the in-memory position,
then write the sidecar; an `OSError` while writing is swallowed (`pass`).
Returns the new in-memory position and the resulting sidecar state. -/
def save_status (writeFails : Bool) (file : SidecarFile) (position : Int) :
    Int × SidecarFile :=
  if writeFails then (position, file)
  else (position, .jsonObject [("position", position)])

/-- `DownloadTracker.cleanup` (lines 45-52): unlink the sidecar if it exists;
an `OSError` is swallowed. -/
def tracker_cleanup (unlinkFails : Bool) (file : SidecarFile) : SidecarFile :=
  match file with
  | .absent => .absent
  | f => if unlinkFails then f else .absent

/-- Claim C8: persistence is indeed non-fatal in `save_status` (a write
failure is swallowed; the call always returns, with the in-memory position
set) and in `cleanup` (an unlink failure is swallowed; the sidecar is removed
or left as-is), and loading an absent, unreadable, or JSON-invalid sidecar
yields position 0 — but a sidecar holding valid non-object JSON (for example
the file text `[1, 2]`) makes `_load_status` raise an uncaught
`AttributeError` from `data.get`, escaping the `DownloadTracker`
constructor, contrary to the claim and to the code's own comment
("If status file is corrupt, start from beginning"). -/
theorem tracker_corrupt_sidecar_raises :
    load_status .absent = .ok 0 ∧
    load_status .unreadable = .ok 0 ∧
    load_status .invalidJson = .ok 0 ∧
    (∃ msg, load_status .jsonNonObject = .error msg) ∧
    (∀ (wf : Bool) (file : SidecarFile) (p : Int), (save_status wf file p).1 = p) ∧
    (∀ (uf : Bool) (file : SidecarFile),
      tracker_cleanup uf file = file ∨ tracker_cleanup uf file = .absent) := by
  refine ⟨rfl, rfl, rfl, ⟨_, rfl⟩, fun wf file p => ?_, fun uf file => ?_⟩
  · by_cases h : wf <;> simp [save_status, h]
  · cases file <;> by_cases h : uf <;> simp [tracker_cleanup, h]

/-- Where a worker thread executing `process_item_parallel` for one
destination path can be: before the locked test-and-set, inside its download
session, finished (after the `finally` block removed the path), or returned
early because the path was already active. -/
inductive WorkerPC where
  | start
  | downloading
  | done
  | skipped
deriving Repr, DecidableEq

/-- One worker thread of the pool, dispatching one destination path. -/
structure Worker where
  pc : WorkerPC
  path : String
deriving Repr, DecidableEq

/-- Shared state of the dispatch protocol: the `_active_downloads` set and the
worker threads.  Each transition below is one critical section guarded by
`_download_lock`. -/
structure Sys where
  active : List String
  workers : List Worker
deriving Repr, DecidableEq

/-- Atomic steps of `process_item_parallel` (downloader.py lines 289-314):
`enterSkip` and `enterRun` are the locked test-and-set of lines 293-297 (a
path already active returns immediately, otherwise it is added and the
download starts); `finish` is the locked removal in the `finally` block,
lines 312-314. -/
inductive Step : Sys → Sys → Prop
  | enterSkip (active : List String) (l1 l2 : List Worker) (p : String)
      (hin : p ∈ active) :
      Step ⟨active, l1 ++ ⟨.start, p⟩ :: l2⟩ ⟨active, l1 ++ ⟨.skipped, p⟩ :: l2⟩
  | enterRun (active : List String) (l1 l2 : List Worker) (p : String)
      (hout : p ∉ active) :
      Step ⟨active, l1 ++ ⟨.start, p⟩ :: l2⟩
        ⟨p :: active, l1 ++ ⟨.downloading, p⟩ :: l2⟩
  | finish (active : List String) (l1 l2 : List Worker) (p : String) :
      Step ⟨active, l1 ++ ⟨.downloading, p⟩ :: l2⟩
        ⟨active.erase p, l1 ++ ⟨.done, p⟩ :: l2⟩

/-- Initial state: no path active, every dispatched worker at `start`. -/
def initSys (paths : List String) : Sys :=
  ⟨[], paths.map (fun p => ⟨.start, p⟩)⟩

/-- States the dispatch protocol can reach from the initial one. -/
def Reachable (paths : List String) (s : Sys) : Prop :=
  Relation.ReflTransGen Step (initSys paths) s

/-- The worker is inside a download session for path `p`. -/
def dlPred (p : String) (w : Worker) : Bool :=
  w.pc == WorkerPC.downloading && w.path == p

/-- Number of workers currently inside a download session for path `p`. -/
def downloadingCount (s : Sys) (p : String) : Nat :=
  s.workers.countP (dlPred p)

theorem countP_dl_split (l1 l2 : List Worker) (w : Worker) (q : String) :
    (l1 ++ w :: l2).countP (dlPred q) =
      l1.countP (dlPred q) + l2.countP (dlPred q) +
        (if dlPred q w = true then 1 else 0) := by
  rw [List.countP_append, List.countP_cons]
  omega

/-- The protocol invariant: the active set has no duplicates and holds a path
exactly when one worker is mid-session on it. -/
def SysInv (s : Sys) : Prop :=
  s.active.Nodup ∧
  ∀ p : String, downloadingCount s p = if p ∈ s.active then 1 else 0

theorem sysInv_step {s t : Sys} (hst : Step s t) (hinv : SysInv s) : SysInv t := by
  obtain ⟨hnd, hcnt⟩ := hinv
  cases hst with
  | enterSkip active l1 l2 p hin =>
    refine ⟨hnd, fun q => ?_⟩
    have hq := hcnt q
    simp only [downloadingCount] at hq ⊢
    rw [countP_dl_split] at hq
    rw [countP_dl_split]
    rw [show dlPred q ⟨WorkerPC.start, p⟩ = false from rfl] at hq
    rw [show dlPred q ⟨WorkerPC.skipped, p⟩ = false from rfl]
    exact hq
  | enterRun active l1 l2 p hout =>
    refine ⟨List.nodup_cons.mpr ⟨hout, hnd⟩, fun q => ?_⟩
    have hq := hcnt q
    simp only [downloadingCount] at hq ⊢
    rw [countP_dl_split] at hq
    rw [countP_dl_split]
    rw [show dlPred q ⟨WorkerPC.start, p⟩ = false from rfl] at hq
    rw [show dlPred q ⟨WorkerPC.downloading, p⟩ = (p == q) from rfl]
    rcases eq_or_ne q p with rfl | hqp
    · rw [if_neg hout] at hq
      rw [beq_self_eq_true, if_pos rfl, if_pos (List.mem_cons_self q active)]
      simp only [Bool.false_eq_true, if_false] at hq
      omega
    · have hbq : ¬((p == q) = true) := by
        simp only [beq_iff_eq]
        exact fun h => hqp (h.symm)
      rw [if_neg hbq]
      have hmem : (q ∈ p :: active) ↔ (q ∈ active) := by
        simp [List.mem_cons, hqp]
      rw [if_congr hmem rfl rfl]
      simp only [Bool.false_eq_true, if_false] at hq
      omega
  | finish active l1 l2 p =>
    refine ⟨hnd.erase p, fun q => ?_⟩
    have hq := hcnt q
    simp only [downloadingCount] at hq ⊢
    rw [countP_dl_split] at hq
    rw [countP_dl_split]
    rw [show dlPred q ⟨WorkerPC.downloading, p⟩ = (p == q) from rfl] at hq
    rw [show dlPred q ⟨WorkerPC.done, p⟩ = false from rfl]
    rcases eq_or_ne q p with rfl | hqp
    · rw [beq_self_eq_true, if_pos rfl] at hq
      have hmem : q ∈ active := by
        by_contra h2
        rw [if_neg h2] at hq
        omega
      rw [if_pos hmem] at hq
      have herase : q ∉ active.erase q := hnd.not_mem_erase
      rw [if_neg herase]
      simp only [Bool.false_eq_true, if_false]
      omega
    · have hbq : ¬((p == q) = true) := by
        simp only [beq_iff_eq]
        exact fun h => hqp (h.symm)
      rw [if_neg hbq] at hq
      have hmem : (q ∈ active.erase p) ↔ (q ∈ active) :=
        List.mem_erase_of_ne hqp
      rw [if_congr hmem rfl rfl]
      simp only [Bool.false_eq_true, if_false] at hq ⊢
      omega

theorem sysInv_reachable (paths : List String) (s : Sys) (h : Reachable paths s) :
    SysInv s := by
  induction h with
  | refl =>
    refine ⟨List.nodup_nil, fun p => ?_⟩
    have : ∀ q : String, dlPred p (⟨WorkerPC.start, q⟩ : Worker) = false := fun _ => rfl
    simp [initSys, downloadingCount, List.countP_map, Function.comp, this,
      List.countP_eq_zero]
  | tail _ hstep ih => exact sysInv_step hstep ih

/-- Claim C9: in every reachable state of the locked dispatch protocol, at
most one worker is inside a download session per destination path (a second
dispatch of an active path can only move to `skipped`, touching nothing), and
a path is a member of the active set exactly while a session on it is in
flight. -/
theorem active_paths_mutual_exclusion (paths : List String) (s : Sys)
    (h : Reachable paths s) :
    s.active.Nodup ∧
    (∀ p, downloadingCount s p ≤ 1) ∧
    (∀ p, p ∈ s.active ↔ downloadingCount s p = 1) := by
  obtain ⟨hnd, hcnt⟩ := sysInv_reachable paths s h
  refine ⟨hnd, fun p => ?_, fun p => ?_⟩
  · rw [hcnt p]
    split <;> omega
  · rw [hcnt p]
    by_cases hp : p ∈ s.active <;> simp [hp]

/-- C9 at a concrete two-worker race on the same path: after one worker
enters its session and the second observes the path active and skips, exactly
one session is in flight. -/
theorem active_paths_mutual_exclusion_witness :
    downloadingCount ⟨["a"], [⟨.downloading, "a"⟩, ⟨.skipped, "a"⟩]⟩ "a" ≤ 1 ∧
    ("a" ∈ (["a"] : List String) ↔
      downloadingCount ⟨["a"], [⟨.downloading, "a"⟩, ⟨.skipped, "a"⟩]⟩ "a" = 1) :=
  ⟨(active_paths_mutual_exclusion ["a", "a"]
    ⟨["a"], [⟨.downloading, "a"⟩, ⟨.skipped, "a"⟩]⟩
    (Relation.ReflTransGen.tail
      (Relation.ReflTransGen.tail Relation.ReflTransGen.refl
        (Step.enterRun [] [] [⟨.start, "a"⟩] "a" (by simp)))
      (Step.enterSkip ["a"] [⟨.downloading, "a"⟩] [] "a" (by simp)))).2.1 "a",
  (active_paths_mutual_exclusion ["a", "a"]
    ⟨["a"], [⟨.downloading, "a"⟩, ⟨.skipped, "a"⟩]⟩
    (Relation.ReflTransGen.tail
      (Relation.ReflTransGen.tail Relation.ReflTransGen.refl
        (Step.enterRun [] [] [⟨.start, "a"⟩] "a" (by simp)))
      (Step.enterSkip ["a"] [⟨.downloading, "a"⟩] [] "a" (by simp)))).2.2 "a"⟩

end IFetch
